import Mathlib

/-!
Verification development for the declarative client-side route matcher and
navigation session described by the repository specification.

The repository itself contains only tutorial documents and example route
declarations (src/src/App.jsx and friends); the matcher and the navigation
session are supplied by an external library whose code is not part of the
repository.  Following the specification, the matcher and the session are
modelled here from the specification text; the concrete route tables and
scenario patterns are taken from the repository sources.
-/

/-- Modelled from the spec: PatternSegment, one unit of a compiled path
pattern.  The matcher implementation is missing from the repository sources;
kinds are literal, named parameter, optional parameter and wildcard, with the
wildcard capturing under the catch-all marker name. -/
inductive PatternSegment where
  | literal (text : String)
  | param (name : String)
  | optionalParam (name : String)
  | wildcard
deriving DecidableEq, Repr

/-- Modelled from the spec: the compile-time pattern-syntax error cases. -/
inductive PatternError where
  | wildcardNotLast
  | emptyParamName
  | duplicateParamName
deriving DecidableEq, Repr

/-- Split a character list at every occurrence of the segment delimiter. -/
def splitOnSlash : List Char → List (List Char)
  | [] => [[]]
  | c :: cs =>
    let r := splitOnSlash cs
    if c = '/' then [] :: r
    else (c :: r.headD []) :: r.tail

/-- Modelled from the spec: splitting a path or pattern string on the segment
delimiter, dropping empty segments. -/
def splitPath (s : String) : List String :=
  ((splitOnSlash s.data).filter (fun cs => !cs.isEmpty)).map (fun cs => ⟨cs⟩)

/-- Join character-list segments with the segment delimiter. -/
def joinSegs : List (List Char) → List Char
  | [] => []
  | [s] => s
  | s :: rest => s ++ '/' :: joinSegs rest

/-- Join string segments with the segment delimiter (no leading delimiter). -/
def joinPath (segs : List String) : String :=
  ⟨joinSegs (segs.map String.data)⟩

/-- Build a concrete path string from segment pieces, with the leading
segment delimiter of a rooted path. -/
def buildPath (pieces : List String) : String :=
  ⟨'/' :: joinSegs (pieces.map String.data)⟩

/-- Modelled from the spec: classification of a single raw pattern segment.
A segment equal to the catch-all marker is a wildcard; a segment beginning
with the parameter marker is a parameter, optional when it also ends with the
optionality marker; anything else is a literal. -/
def compileSeg (s : String) : PatternSegment :=
  if s = "*" then .wildcard
  else
    match s.data with
    | ':' :: rest =>
      if rest.getLast? = some '?' then .optionalParam ⟨rest.dropLast⟩
      else .param ⟨rest⟩
    | _ => .literal s

/-- The capture name of a segment, if it has one; the wildcard captures under
the catch-all marker name. -/
def segName : PatternSegment → Option String
  | .param n => some n
  | .optionalParam n => some n
  | .wildcard => some "*"
  | .literal _ => none

/-- Whether a segment is the wildcard. -/
def isWildcard : PatternSegment → Bool
  | .wildcard => true
  | _ => false

/-- Modelled from the spec: the pattern-syntax checks performed by compile on
the parsed segment sequence: a wildcard segment must be last, no parameter
name may be empty, and no parameter name may appear twice in one pattern. -/
def compileChecks (segs : List PatternSegment) : Except PatternError (List PatternSegment) :=
  if segs.dropLast.any isWildcard then .error .wildcardNotLast
  else if (segs.filterMap segName).any (fun n => n = "") then .error .emptyParamName
  else if (segs.filterMap segName).Nodup then .ok segs
  else .error .duplicateParamName

/-- Modelled from the spec: compile(pattern), a pure function from a pattern
string to an ordered sequence of PatternSegment, failing with PatternError
on malformed patterns. -/
def compile (pattern : String) : Except PatternError (List PatternSegment) :=
  compileChecks ((splitPath pattern).map compileSeg)

/-- Modelled from the spec: RouteNode, a node of the route tree: a compiled
pattern (possibly empty for a pure layout node), the is-index flag, the
ordered children and an opaque payload identifier. -/
inductive RouteNode where
  | mk (segs : List PatternSegment) (isIndex : Bool)
      (children : List RouteNode) (payload : Nat)

def RouteNode.segs : RouteNode → List PatternSegment
  | .mk s _ _ _ => s

def RouteNode.isIndex : RouteNode → Bool
  | .mk _ b _ _ => b

def RouteNode.children : RouteNode → List RouteNode
  | .mk _ _ c _ => c

def RouteNode.payload : RouteNode → Nat
  | .mk _ _ _ p => p

/-- Modelled from the spec: MatchResult, the output of resolution: the
root-to-leaf chain of matched nodes (by payload identifier), the parameter
mapping, and the matched flag.  The remaining wildcard text is recorded in
the mapping under the wildcard parameter name. -/
structure MatchResult where
  chain : List Nat
  params : List (String × String)
  matched : Bool
deriving DecidableEq, Repr

/-- Modelled from the spec: matching a node's compiled segment sequence
against the remaining path segments.  Returns candidate outcomes in
precedence order, each a list of captures in consumption order together with
the unconsumed remainder; an optional parameter is tried consumed first and
left unconsumed second, and the wildcard consumes all remaining segments as
one captured value. -/
def matchSegs : List PatternSegment → List String → List (List (String × String) × List String)
  | [], rest => [([], rest)]
  | .literal t :: ps, rest =>
    match rest with
    | [] => []
    | s :: rest' => if s = t then matchSegs ps rest' else []
  | .param n :: ps, rest =>
    match rest with
    | [] => []
    | s :: rest' => (matchSegs ps rest').map (fun pr => ((n, s) :: pr.1, pr.2))
  | .optionalParam n :: ps, rest =>
    (match rest with
     | [] => []
     | s :: rest' => (matchSegs ps rest').map (fun pr => ((n, s) :: pr.1, pr.2)))
    ++ matchSegs ps rest
  | .wildcard :: ps, rest =>
    (matchSegs ps []).map (fun pr => (("*", joinPath rest) :: pr.1, pr.2))

/-- Modelled from the spec: the precedence rank of a child for the next path
segment: pure layout children first, then matching literals, then
parameters, then optional parameters, then the wildcard.  A literal child
whose text differs from the next segment is not a candidate. -/
def childRank (c : RouteNode) (next : String) : Option Nat :=
  match c.segs with
  | [] => some 0
  | .literal t :: _ => if t = next then some 1 else none
  | .param _ :: _ => some 2
  | .optionalParam _ :: _ => some 3
  | .wildcard :: _ => some 4

/-- The candidate precedence ranks, in the order they are tried. -/
def rankList : List Nat := [0, 1, 2, 3, 4]

/-- The payload of the first index child of a node, if any. -/
def findIndexPayload (cs : List RouteNode) : Option Nat :=
  cs.findSome? (fun c => if c.isIndex then some c.payload else none)

/-- Modelled from the spec: the recursive descent of the resolver, with a
fuel bound standing for the cap on recursion depth.  At a node, each
outcome of matching the node's own pattern is tried in order: a fully
consumed remainder terminates the chain (appending the index child when one
is declared), otherwise the children are tried exhaustively in precedence
order, backtracking to the next outcome when no child consumes the rest. -/
def resolveNodeF : Nat → RouteNode → List String → Option (List Nat × List (String × String))
  | 0, _, _ => none
  | fuel + 1, n, path =>
    (matchSegs n.segs path).findSome? (fun out =>
      match out with
      | (caps, []) =>
        match findIndexPayload n.children with
        | some ip => some ([n.payload, ip], caps)
        | none => some ([n.payload], caps)
      | (caps, s :: rest) =>
        (rankList.findSome? (fun r =>
          n.children.findSome? (fun c =>
            if childRank c s = some r then resolveNodeF fuel c (s :: rest) else none))).map
          (fun pr => (n.payload :: pr.1, caps ++ pr.2)))

mutual

/-- The number of nodes of a route tree, used as the recursion-depth cap. -/
def RouteNode.size : RouteNode → Nat
  | .mk _ _ cs _ => 1 + RouteNode.sizeList cs

/-- The total number of nodes of a forest of route trees. -/
def RouteNode.sizeList : List RouteNode → Nat
  | [] => 0
  | c :: cs => RouteNode.size c + RouteNode.sizeList cs

end

/-- Collapse a root-to-leaf capture sequence into the parameter mapping:
keys unique, last writer along the chain wins. -/
def paramsMap : List (String × String) → List (String × String)
  | [] => []
  | (k, v) :: rest =>
    if rest.any (fun e => e.1 == k) then paramsMap rest else (k, v) :: paramsMap rest

/-- Modelled from the spec: resolve(root, path).  No-match is not an error:
the result is a structured MatchResult with matched set to false and an
empty chain when no full-path consumption succeeds anywhere in the tree. -/
def resolve (root : RouteNode) (path : String) : MatchResult :=
  match resolveNodeF (RouteNode.size root) root (splitPath path) with
  | some pr => ⟨pr.1, paramsMap pr.2, true⟩
  | none => ⟨[], [], false⟩

/-- Modelled from the spec: Location, an entry of the navigation history:
path, optional query component, optional opaque state value, and the
monotonically increasing sequence index used for ordering. -/
structure Location where
  path : String
  query : Option String
  stateVal : Option String
  seq : Nat
deriving DecidableEq, Repr

/-- The data of a location before the session assigns its sequence index. -/
structure LocationData where
  path : String
  query : Option String
  stateVal : Option String
deriving DecidableEq, Repr

/-- Modelled from the spec: the reason attached to a location-changed
event emitted to subscribers. -/
inductive EventReason where
  | pushed
  | replaced
  | popped
deriving DecidableEq, Repr

/-- Modelled from the spec: NavigationSession, owning the ordered sequence of
Location entries, the cursor index into it, and the next sequence index. -/
structure NavigationSession where
  entries : List Location
  cursor : Nat
  nextSeq : Nat
deriving DecidableEq, Repr

/-- Modelled from the spec: session initialization, seeding the history with
one entry and placing the cursor on it. -/
def initSession (l : LocationData) : NavigationSession :=
  ⟨[⟨l.path, l.query, l.stateVal, 0⟩], 0, 1⟩

/-- Modelled from the spec: push(location) truncates the history after the
current cursor, appends the new location with the next sequence index,
advances the cursor to the new last index, and emits a location-changed
event with reason push. -/
def pushLoc (s : NavigationSession) (l : LocationData) :
    NavigationSession × Option EventReason :=
  let entries' := s.entries.take (s.cursor + 1) ++ [⟨l.path, l.query, l.stateVal, s.nextSeq⟩]
  (⟨entries', entries'.length - 1, s.nextSeq + 1⟩, some .pushed)

/-- Modelled from the spec: replace(location) overwrites the entry at the
current cursor in place, keeping its sequence index, and emits an event with
reason replace. -/
def replaceLoc (s : NavigationSession) (l : LocationData) :
    NavigationSession × Option EventReason :=
  let oldSeq := ((s.entries[s.cursor]?).map Location.seq).getD 0
  (⟨s.entries.set s.cursor ⟨l.path, l.query, l.stateVal, oldSeq⟩, s.cursor, s.nextSeq⟩,
    some .replaced)

/-- Modelled from the spec: go(delta) moves the cursor by delta; when the
resulting cursor would fall outside the valid range the call is a no-op with
no event; otherwise the cursor moves and an event with reason pop is emitted
exactly when the cursor actually changed. -/
def goDelta (s : NavigationSession) (delta : Int) :
    NavigationSession × Option EventReason :=
  let t : Int := (s.cursor : Int) + delta
  if 0 ≤ t ∧ t < (s.entries.length : Int) then
    if t = (s.cursor : Int) then (s, none)
    else (⟨s.entries, t.toNat, s.nextSeq⟩, some .popped)
  else (s, none)

/-- The current location of a session: the entry under the cursor. -/
def currentLoc (s : NavigationSession) : Option Location :=
  s.entries[s.cursor]?

/-- The session invariant: the history is non-empty and the cursor is a
valid index into it. -/
def ValidSession (s : NavigationSession) : Prop :=
  s.entries ≠ [] ∧ s.cursor < s.entries.length

instance : DecidablePred ValidSession := fun s => by
  unfold ValidSession; infer_instance

/-- The states reachable from an initialized session by any sequence of
push, replace and go operations. -/
inductive ReachableSession : NavigationSession → Prop where
  | init (l : LocationData) : ReachableSession (initSession l)
  | push (s : NavigationSession) (l : LocationData) :
      ReachableSession s → ReachableSession (pushLoc s l).1
  | replace (s : NavigationSession) (l : LocationData) :
      ReachableSession s → ReachableSession (replaceLoc s l).1
  | go (s : NavigationSession) (d : Int) :
      ReachableSession s → ReachableSession (goDelta s d).1

/-- The parsed segment sequence of a pattern string, before the checks. -/
def segsOf (p : String) : List PatternSegment :=
  (splitPath p).map compileSeg

/-- The pathless layout route of the final App component, wrapping the home,
users, about, user-details, users-list and user routes declared in
src/src/App.jsx. -/
def appLayout : RouteNode :=
  .mk [] false
    [.mk (segsOf "/") false [] 2,
     .mk (segsOf "/users") false [] 3,
     .mk (segsOf "/about") false [] 4,
     .mk (segsOf "/users/:id/:name?") false [] 5,
     .mk (segsOf "/users/list?") false [] 6,
     .mk (segsOf "user") false
       [.mk (segsOf "/user/login") false [] 8,
        .mk (segsOf "/user/signup") false [] 9,
        .mk (segsOf "/user/forgot") false [] 10] 7] 1

/-- The college route of the final App component, with an index child and
two literal children. -/
def appCollege : RouteNode :=
  .mk (segsOf "/college") false
    [.mk [] true [] 12,
     .mk (segsOf "departments") false [] 13,
     .mk (segsOf "details") false [] 14] 11

/-- The top-level catch-all route of the final App component, rendering the
not-found page. -/
def appCatchAll : RouteNode :=
  .mk (segsOf "/*") false [] 15

/-- The route tree declared by the final App component in src/src/App.jsx:
the layout route, the college route and the trailing catch-all, under a
synthetic pathless root. -/
def appRoot : RouteNode :=
  .mk [] false [appLayout, appCollege, appCatchAll] 0

/-- A concrete initial location for worked examples. -/
def ld0 : LocationData := ⟨"/", none, none⟩

/-- A concrete pushed location for worked examples. -/
def ld1 : LocationData := ⟨"/about", none, none⟩

/-- A second concrete pushed location for worked examples. -/
def ld2 : LocationData := ⟨"/login", none, none⟩

/-- The session obtained by initializing at the root location and pushing
one more location: two entries, cursor on the second. -/
def s0 : NavigationSession := (pushLoc (initSession ld0) ld1).1

/-- The path pieces contributed by one pattern segment when a substitution
assigns every parameter a value and the wildcard the value w. -/
def substSeg (σ : String → String) (w : String) : PatternSegment → List String
  | .literal t => [t]
  | .param n => [σ n]
  | .optionalParam n => [σ n]
  | .wildcard => splitPath w

/-- The concrete path pieces built from a pattern by substituting parameter
values, segment by segment. -/
def builtPieces (σ : String → String) (w : String) : List PatternSegment → List String
  | [] => []
  | seg :: rest => substSeg σ w seg ++ builtPieces σ w rest

/-- The substituted entries of a pattern, in pattern order: the expected
parameter mapping of the round trip. -/
def capsOf (σ : String → String) (w : String) : List PatternSegment → List (String × String)
  | [] => []
  | .literal _ :: rest => capsOf σ w rest
  | .param n :: rest => (n, σ n) :: capsOf σ w rest
  | .optionalParam n :: rest => (n, σ n) :: capsOf σ w rest
  | .wildcard :: rest => ("*", w) :: capsOf σ w rest

/-- A substituted parameter value is admissible for the round trip when it
is nonempty and holds no segment delimiter. -/
def substOK (σ : String → String) : PatternSegment → Prop
  | .param n => σ n ≠ "" ∧ '/' ∉ (σ n).data
  | .optionalParam n => σ n ≠ "" ∧ '/' ∉ (σ n).data
  | _ => True

instance (σ : String → String) (sg : PatternSegment) : Decidable (substOK σ sg) := by
  cases sg <;> unfold substOK <;> infer_instance

/-- Whether a wildcard occurs only as the final segment. -/
def wildOK : List PatternSegment → Bool
  | [] => true
  | .wildcard :: rest => rest.isEmpty
  | _ :: rest => wildOK rest

/-- A concrete substitution for the round-trip witness. -/
def sigW : String → String := fun n => if n = "id" then "7" else "Jane"

example : compile "/users/:id/:name?" =
    .ok [.literal "users", .param "id", .optionalParam "name"] := by rfl

example : resolve (RouteNode.mk [.literal "users", .param "id", .optionalParam "name"]
    false [] 5) "/users/7" = ⟨[5], [("id", "7")], true⟩ := by rfl

example : resolve (RouteNode.mk [.literal "users", .param "id", .optionalParam "name"]
    false [] 5) "/users/7/Jane" = ⟨[5], [("id", "7"), ("name", "Jane")], true⟩ := by rfl

example : resolve (RouteNode.mk [.literal "college", .wildcard] false [] 3)
    "/college/a/b/c" = ⟨[3], [("*", "a/b/c")], true⟩ := by rfl

/-- C5: push(location) truncates the history entries after the current
cursor, appends the new location carrying the next sequence index, advances
the cursor to the new last index and increments the sequence counter,
emitting an event with reason push; consequently a push performed after
go(-1) discards the previously-forward history entries. -/
theorem push_truncates_appends_advances (s : NavigationSession) (l : LocationData)
    (h : s.cursor < s.entries.length) :
    (pushLoc s l).1.entries
      = s.entries.take (s.cursor + 1) ++ [⟨l.path, l.query, l.stateVal, s.nextSeq⟩] ∧
    (pushLoc s l).1.cursor = s.cursor + 1 ∧
    (pushLoc s l).1.cursor = (pushLoc s l).1.entries.length - 1 ∧
    (pushLoc s l).1.nextSeq = s.nextSeq + 1 ∧
    (pushLoc s l).2 = some .pushed ∧
    (1 ≤ s.cursor →
      (pushLoc (goDelta s (-1)).1 l).1.entries
        = s.entries.take s.cursor ++ [⟨l.path, l.query, l.stateVal, s.nextSeq⟩]) := by
  refine ⟨rfl, ?_, ?_, rfl, rfl, ?_⟩
  · simp only [pushLoc, List.length_append, List.length_take, List.length_cons,
      List.length_nil]
    omega
  · rfl
  · intro hc
    have hrange : 0 ≤ (s.cursor : Int) + (-1) ∧
        (s.cursor : Int) + (-1) < (s.entries.length : Int) := by omega
    have hne : ¬ ((s.cursor : Int) + (-1) = (s.cursor : Int)) := by omega
    simp only [goDelta, if_pos hrange, if_neg hne, pushLoc]
    have ht : ((s.cursor : Int) + (-1)).toNat + 1 = s.cursor := by omega
    rw [ht]

/-- C6: push followed by go(-1) returns the session to the location that was
current immediately before the push (byte-for-byte equal path), and a
subsequent go(1) makes the pushed location current again. -/
theorem push_then_go_back_round_trip (s : NavigationSession) (l : LocationData)
    (h : s.cursor < s.entries.length) :
    ((currentLoc (goDelta (pushLoc s l).1 (-1)).1).map Location.path
        = (currentLoc s).map Location.path) ∧
    ((currentLoc (goDelta (goDelta (pushLoc s l).1 (-1)).1 1).1).map Location.path
        = some l.path) := by
  have hkept : (s.entries.take (s.cursor + 1)).length = s.cursor + 1 := by
    simp only [List.length_take]; omega
  have hlen : (pushLoc s l).1.entries.length = s.cursor + 2 := by
    simp only [pushLoc, List.length_append, List.length_take, List.length_cons,
      List.length_nil]
    omega
  have hcur : (pushLoc s l).1.cursor = s.cursor + 1 := by
    simp only [pushLoc, List.length_append, List.length_take, List.length_cons,
      List.length_nil]
    omega
  have hrange : 0 ≤ ((pushLoc s l).1.cursor : Int) + (-1) ∧
      ((pushLoc s l).1.cursor : Int) + (-1) < ((pushLoc s l).1.entries.length : Int) := by
    rw [hcur, hlen]; omega
  have hne : ¬ (((pushLoc s l).1.cursor : Int) + (-1) = ((pushLoc s l).1.cursor : Int)) := by
    omega
  have htn : (((pushLoc s l).1.cursor : Int) + (-1)).toNat = s.cursor := by
    rw [hcur]; omega
  have e1 : (goDelta (pushLoc s l).1 (-1)).1
      = ⟨(pushLoc s l).1.entries, s.cursor, (pushLoc s l).1.nextSeq⟩ := by
    simp only [goDelta, if_pos hrange, if_neg hne, htn]
  have e2 : (goDelta (goDelta (pushLoc s l).1 (-1)).1 1).1
      = ⟨(pushLoc s l).1.entries, s.cursor + 1, (pushLoc s l).1.nextSeq⟩ := by
    rw [e1]
    have hrange2 : 0 ≤ (s.cursor : Int) + 1 ∧
        (s.cursor : Int) + 1 < ((pushLoc s l).1.entries.length : Int) := by
      rw [hlen]; omega
    have hne2 : ¬ ((s.cursor : Int) + 1 = (s.cursor : Int)) := by omega
    have htn2 : ((s.cursor : Int) + 1).toNat = s.cursor + 1 := by omega
    simp only [goDelta, if_pos hrange2, if_neg hne2, htn2]
  constructor
  · rw [e1]
    show (((s.entries.take (s.cursor + 1) ++ _)[s.cursor]?).map Location.path) = _
    rw [List.getElem?_append, if_pos (by rw [hkept]; omega), List.getElem?_take,
      if_pos (by omega)]
    rfl
  · rw [e2]
    show (((s.entries.take (s.cursor + 1)
        ++ [⟨l.path, l.query, l.stateVal, s.nextSeq⟩])[s.cursor + 1]?).map Location.path)
      = some l.path
    rw [List.getElem?_append, if_neg (by rw [hkept]; omega), hkept]
    simp

/-- C7: go(delta) moves the cursor by delta within the valid range, leaving
the entries and sequence counter unchanged and emitting an event with reason
pop exactly when the cursor actually changed; when the target would fall
outside the valid range the call is a no-op returning the unchanged session
and no event. -/
theorem go_clamped_noop (s : NavigationSession) (d : Int) :
    ((0 ≤ (s.cursor : Int) + d ∧ (s.cursor : Int) + d < (s.entries.length : Int)) →
      (goDelta s d).1.entries = s.entries ∧
      (goDelta s d).1.nextSeq = s.nextSeq ∧
      ((goDelta s d).1.cursor : Int) = (s.cursor : Int) + d ∧
      ((goDelta s d).2 = some .popped ↔ d ≠ 0)) ∧
    (¬ (0 ≤ (s.cursor : Int) + d ∧ (s.cursor : Int) + d < (s.entries.length : Int)) →
      goDelta s d = (s, none)) := by
  constructor
  · intro hr
    by_cases he : (s.cursor : Int) + d = (s.cursor : Int)
    · have eg : goDelta s d = (s, none) := by
        simp only [goDelta, if_pos hr, if_pos he]
      rw [eg]
      refine ⟨rfl, rfl, ?_, ?_⟩
      · show ((s.cursor : Nat) : Int) = (s.cursor : Int) + d
        omega
      constructor
      · intro hx; exact Option.noConfusion hx
      · intro hx; exact absurd (show d = 0 by omega) hx
    · have eg : goDelta s d
          = (⟨s.entries, ((s.cursor : Int) + d).toNat, s.nextSeq⟩, some .popped) := by
        simp only [goDelta, if_pos hr, if_neg he]
      rw [eg]
      refine ⟨rfl, rfl, ?_, ?_⟩
      · show ((((s.cursor : Int) + d).toNat : Nat) : Int) = (s.cursor : Int) + d
        omega
      · exact ⟨fun _ => by omega, fun _ => rfl⟩
  · intro hr
    simp only [goDelta, if_neg hr]

/-- C8: the session invariant, a non-empty history with the cursor a valid
index into it, holds in every state reachable from an initialized session by
any sequence of push, replace and go operations. -/
theorem reachable_session_valid (s : NavigationSession) (h : ReachableSession s) :
    ValidSession s := by
  induction h with
  | init l => exact ⟨by simp [initSession], by simp [initSession]⟩
  | push s l _ ih =>
    constructor
    · simp [pushLoc]
    · simp only [pushLoc, List.length_append, List.length_take, List.length_cons,
        List.length_nil]
      omega
  | replace s l _ ih =>
    obtain ⟨h1, h2⟩ := ih
    constructor
    · simp only [replaceLoc]
      intro hnil
      exact h1 (by simpa using congrArg List.length hnil)
    · simpa [replaceLoc] using h2
  | go s d _ ih =>
    obtain ⟨h1, h2⟩ := ih
    by_cases hr : 0 ≤ (s.cursor : Int) + d ∧ (s.cursor : Int) + d < (s.entries.length : Int)
    · by_cases he : (s.cursor : Int) + d = (s.cursor : Int)
      · simpa [goDelta, hr, he] using ⟨h1, h2⟩
      · refine ⟨by simpa [goDelta, hr, he] using h1, ?_⟩
        simp only [goDelta, if_pos hr, if_neg he]
        omega
    · simpa [goDelta, hr] using ⟨h1, h2⟩

/-- Witness for C5: the push characterization applied to the concrete
two-entry session, including the discarded forward entry after going back. -/
theorem push_truncates_witness :
    (pushLoc s0 ld2).1.cursor = 2 ∧
    (pushLoc (goDelta s0 (-1)).1 ld2).1.entries
      = [⟨"/", none, none, 0⟩, ⟨"/login", none, none, 2⟩] := by
  have h := push_truncates_appends_advances s0 ld2 (by decide)
  refine ⟨h.2.1, ?_⟩
  have e := h.2.2.2.2.2 (by decide)
  rw [e]
  rfl

/-- Witness for C6: pushing the login location onto the concrete session,
going back shows the about location, going forward shows login again. -/
theorem push_then_go_back_witness :
    ((currentLoc (goDelta (pushLoc s0 ld2).1 (-1)).1).map Location.path
        = some "/about") ∧
    ((currentLoc (goDelta (goDelta (pushLoc s0 ld2).1 (-1)).1 1).1).map Location.path
        = some "/login") := by
  have h := push_then_go_back_round_trip s0 ld2 (by decide)
  constructor
  · rw [h.1]; rfl
  · rw [h.2]; rfl

/-- Witness for C7: on the concrete session, go(-1) keeps the entries and
emits a pop event, while go(-5) is a no-op with no event. -/
theorem go_clamped_noop_witness :
    (goDelta s0 (-1)).1.entries = s0.entries ∧
    ((goDelta s0 (-1)).2 = some EventReason.popped) ∧
    goDelta s0 (-5) = (s0, none) := by
  have h1 := (go_clamped_noop s0 (-1)).1 (by decide)
  have h2 := (go_clamped_noop s0 (-5)).2 (by decide)
  exact ⟨h1.1, h1.2.2.2.mpr (by decide), h2⟩

/-- Witness for C8: the concrete session reached by initializing and pushing
once satisfies the invariant. -/
theorem reachable_session_valid_witness : ValidSession s0 :=
  reachable_session_valid s0
    (ReachableSession.push (initSession ld0) ld1 (ReachableSession.init ld0))

/-- C2: resolve is total and no-match is not an error: for every route tree
and every path it returns a structured MatchResult that is either matched or
the no-match result with matched false and an empty chain; in particular the
path that matches nothing in a tree with no catch-all yields matched false
with an empty chain. -/
theorem resolve_no_match_structured :
    (∀ (root : RouteNode) (path : String),
      (resolve root path).matched = true ∨ resolve root path = ⟨[], [], false⟩) ∧
    resolve (RouteNode.mk [] false [RouteNode.mk [.literal "about"] false [] 1] 0) "/nope"
      = ⟨[], [], false⟩ := by
  constructor
  · intro root path
    unfold resolve
    cases resolveNodeF (RouteNode.size root) root (splitPath path) with
    | none => exact Or.inr rfl
    | some pr => exact Or.inl rfl
  · rfl

/-- C3: a non-optional parameter followed by an optional parameter resolves
a path without the optional segment to a mapping holding only the
non-optional capture, and a path carrying it to both captures; in general an
optional parameter facing an exhausted path is left unconsumed and adds no
entry to the captures. -/
theorem optional_param_capture :
    compile "/users/:id/:name?"
      = .ok [.literal "users", .param "id", .optionalParam "name"] ∧
    resolve (RouteNode.mk [.literal "users", .param "id", .optionalParam "name"]
      false [] 5) "/users/7" = ⟨[5], [("id", "7")], true⟩ ∧
    resolve (RouteNode.mk [.literal "users", .param "id", .optionalParam "name"]
      false [] 5) "/users/7/Jane" = ⟨[5], [("id", "7"), ("name", "Jane")], true⟩ ∧
    (∀ (n : String) (ps : List PatternSegment),
      matchSegs (.optionalParam n :: ps) [] = matchSegs ps []) :=
  ⟨rfl, rfl, rfl, fun _ _ => rfl⟩

/-- The ok results of compile carry exactly the parsed segments, and record
that the checked error conditions are absent. -/
theorem compile_ok_shape (pattern : String) (segs : List PatternSegment)
    (hc : compile pattern = .ok segs) :
    segs = (splitPath pattern).map compileSeg ∧
    ((splitPath pattern).map compileSeg).dropLast.any isWildcard = false ∧
    (((splitPath pattern).map compileSeg).filterMap segName).any (fun n => n = "")
      = false ∧
    (((splitPath pattern).map compileSeg).filterMap segName).Nodup := by
  unfold compile compileChecks at hc
  split at hc
  next h1 => exact Except.noConfusion hc
  next h1 =>
    split at hc
    next h2 => exact Except.noConfusion hc
    next h2 =>
      split at hc
      next h3 =>
        injection hc with hseg
        refine ⟨hseg.symm, ?_, ?_, h3⟩
        · simpa using h1
        · simpa using h2
      next h3 => exact Except.noConfusion hc

/-- C4: the wildcard consumes all remaining unconsumed path segments as one
captured value named by the wildcard parameter; a compiled pattern can carry
a wildcard only as its final segment; and the college catch-all pattern
captures the three-segment remainder as one value. -/
theorem wildcard_capture_and_last :
    (∀ rest : List String, matchSegs [.wildcard] rest = [([("*", joinPath rest)], [])]) ∧
    (∀ (pattern : String) (segs : List PatternSegment), compile pattern = .ok segs →
      ∀ sg ∈ segs.dropLast, sg ≠ .wildcard) ∧
    resolve (RouteNode.mk [.literal "college", .wildcard] false [] 3) "/college/a/b/c"
      = ⟨[3], [("*", "a/b/c")], true⟩ := by
  refine ⟨fun rest => rfl, ?_, rfl⟩
  intro pattern segs hc sg hmem hwild
  obtain ⟨hseg, hany, -, -⟩ := compile_ok_shape pattern segs hc
  rw [List.any_eq_false] at hany
  subst hwild
  subst hseg
  exact hany _ hmem (by simp [isWildcard])

/-- Witness for C4: applying the wildcard-only-last consequence at the
college catch-all pattern. -/
theorem wildcard_capture_and_last_witness :
    (PatternSegment.literal "college" : PatternSegment) ≠ .wildcard :=
  wildcard_capture_and_last.2.1 "/college/*" [.literal "college", .wildcard] rfl
    (.literal "college") (by decide)

/-- C9: compile fails with a PatternError exactly when the parsed pattern
has a non-final wildcard segment, an empty parameter name, or a repeated
parameter name; on all other inputs it succeeds, returning exactly the
parsed segments. -/
theorem compile_error_characterization (pattern : String) :
    ((∃ e, compile pattern = .error e) ↔
      ((∃ sg ∈ (segsOf pattern).dropLast, sg = .wildcard) ∨
       (∃ n ∈ (segsOf pattern).filterMap segName, n = "") ∨
       ¬ ((segsOf pattern).filterMap segName).Nodup)) ∧
    (∀ segs, compile pattern = .ok segs → segs = segsOf pattern) := by
  constructor
  · constructor
    · rintro ⟨e, he⟩
      unfold compile compileChecks at he
      split at he
      next h1 =>
        left
        obtain ⟨sg, hm, hw⟩ := List.any_eq_true.mp h1
        refine ⟨sg, hm, ?_⟩
        cases sg <;> simp [isWildcard] at hw ⊢
      next h1 =>
        split at he
        next h2 =>
          right; left
          obtain ⟨n, hm, hn⟩ := List.any_eq_true.mp h2
          exact ⟨n, hm, by simpa using hn⟩
        next h2 =>
          split at he
          next h3 => exact Except.noConfusion he
          next h3 => right; right; exact h3
    · intro h
      by_cases c1 : (segsOf pattern).dropLast.any isWildcard = true
      · refine ⟨.wildcardNotLast, ?_⟩
        have hcc : compile pattern = compileChecks (segsOf pattern) := rfl
        rw [hcc]; unfold compileChecks; rw [if_pos c1]
      · by_cases c2 : ((segsOf pattern).filterMap segName).any (fun n => n = "") = true
        · refine ⟨.emptyParamName, ?_⟩
          have hcc : compile pattern = compileChecks (segsOf pattern) := rfl
          rw [hcc]; unfold compileChecks; rw [if_neg c1, if_pos c2]
        · by_cases c3 : ((segsOf pattern).filterMap segName).Nodup
          · exfalso
            rcases h with ⟨sg, hm, rfl⟩ | ⟨n, hm, rfl⟩ | h3
            · exact c1 (List.any_eq_true.mpr ⟨_, hm, by simp [isWildcard]⟩)
            · exact c2 (List.any_eq_true.mpr ⟨_, hm, by simp⟩)
            · exact h3 c3
          · refine ⟨.duplicateParamName, ?_⟩
            have hcc : compile pattern = compileChecks (segsOf pattern) := rfl
            rw [hcc]; unfold compileChecks; rw [if_neg c1, if_neg c2, if_neg c3]
  · intro segs hs
    exact (compile_ok_shape pattern segs hs).1

/-- Witness for C9: a misplaced wildcard makes compile fail, and a
well-formed pattern compiles to exactly its parsed segments. -/
theorem compile_error_characterization_witness :
    (∃ e, compile "/x/*/y" = .error e) ∧
    ([.literal "users", .param "id"] : List PatternSegment) = segsOf "/users/:id" :=
  ⟨(compile_error_characterization "/x/*/y").1.mpr
      (Or.inl ⟨.wildcard, by decide, rfl⟩),
   (compile_error_characterization "/users/:id").2 [.literal "users", .param "id"] rfl⟩

/-- The one-step unfolding of the resolver at positive fuel. -/
theorem resolveNodeF_succ (fuel : Nat) (n : RouteNode) (path : List String) :
    resolveNodeF (fuel + 1) n path
      = (matchSegs n.segs path).findSome? (fun out =>
          match out with
          | (caps, []) =>
            match findIndexPayload n.children with
            | some ip => some ([n.payload, ip], caps)
            | none => some ([n.payload], caps)
          | (caps, s :: rest) =>
            (rankList.findSome? (fun r =>
              n.children.findSome? (fun c =>
                if childRank c s = some r then resolveNodeF fuel c (s :: rest)
                else none))).map
              (fun pr => (n.payload :: pr.1, caps ++ pr.2))) := rfl

/-- A first-some search skips an element on which the function is none. -/
theorem findSome?_skip {α β : Type} (f : α → Option β) (a : α) (l : List α)
    (h : f a = none) : (a :: l).findSome? f = l.findSome? f := by
  rw [List.findSome?_cons, h]

/-- A first-some search stops at an element on which the function is some. -/
theorem findSome?_hit {α β : Type} (f : α → Option β) (a : α) (l : List α)
    (b : β) (h : f a = some b) : (a :: l).findSome? f = some b := by
  rw [List.findSome?_cons, h]

/-- A first-some search succeeds whenever some listed element succeeds. -/
theorem findSome?_isSome_of_mem {α β : Type} (l : List α) (f : α → Option β)
    (a : α) (ha : a ∈ l) (h : (f a).isSome) : (l.findSome? f).isSome = true := by
  induction l with
  | nil => exact absurd ha (List.not_mem_nil a)
  | cons b bs ih =>
    cases hb : f b with
    | some c => simp [List.findSome?_cons, hb]
    | none =>
      rcases List.mem_cons.mp ha with rfl | ha'
      · rw [hb] at h; exact absurd h (by simp)
      · simpa [List.findSome?_cons, hb] using ih ha'

/-- The resolver at a pathless node on a non-empty path descends directly
into the children search in precedence order. -/
theorem resolveNodeF_layout_cons (fuel : Nat) (b : Bool) (cs : List RouteNode)
    (p : Nat) (s : String) (rest : List String) :
    resolveNodeF (fuel + 1) (.mk [] b cs p) (s :: rest)
      = (rankList.findSome? (fun r =>
          cs.findSome? (fun c =>
            if childRank c s = some r then resolveNodeF fuel c (s :: rest)
            else none))).map
        (fun pr => (p :: pr.1, pr.2)) := by
  simp only [resolveNodeF, RouteNode.segs, RouteNode.children, RouteNode.payload, matchSegs]
  rw [List.findSome?_cons]
  simp only [List.findSome?_nil]
  cases hX : (rankList.findSome? (fun r =>
      cs.findSome? (fun c =>
        if childRank c s = some r then resolveNodeF fuel c (s :: rest) else none))) with
  | none => simp [hX]
  | some pr => simp [hX]

/-- C10: against the final App route tree, which ends in a top-level
catch-all, resolution of every path yields a matched result with a
non-empty chain; the unmatched outcome is unreachable for this tree. -/
theorem app_tree_always_matches (path : String) :
    (resolve appRoot path).matched = true ∧ (resolve appRoot path).chain ≠ [] := by
  unfold resolve
  have h16 : RouteNode.size appRoot = 16 := rfl
  rw [h16]
  rcases hsp : splitPath path with - | ⟨s, rest⟩
  · exact ⟨rfl, by decide⟩
  · have hA : resolveNodeF 15 appCatchAll (s :: rest)
        = some ([15], [("*", joinPath (s :: rest))]) := rfl
    have e1 : (if childRank appLayout s = some 4
        then resolveNodeF 15 appLayout (s :: rest) else none) = none := by
      rw [if_neg]
      rw [show childRank appLayout s = some 0 from rfl]
      decide
    have e2 : (if childRank appCollege s = some 4
        then resolveNodeF 15 appCollege (s :: rest) else none) = none := by
      rw [if_neg]
      rw [show childRank appCollege s
          = (if "college" = s then some 1 else none) from rfl]
      by_cases hcs : "college" = s
      · rw [if_pos hcs]; decide
      · rw [if_neg hcs]; decide
    have e3 : (if childRank appCatchAll s = some 4
        then resolveNodeF 15 appCatchAll (s :: rest) else none)
        = some ([15], [("*", joinPath (s :: rest))]) := by
      rw [if_pos (show childRank appCatchAll s = some 4 from rfl)]
      exact hA
    have hG4 : ((appRoot.children).findSome? (fun c =>
        if childRank c s = some 4 then resolveNodeF 15 c (s :: rest) else none))
        = some ([15], [("*", joinPath (s :: rest))]) := by
      show ((appLayout :: appCollege :: appCatchAll :: []).findSome? (fun c =>
        if childRank c s = some 4 then resolveNodeF 15 c (s :: rest) else none))
        = some ([15], [("*", joinPath (s :: rest))])
      simp only [List.findSome?_cons, e1, e2, e3]
    obtain ⟨v, hv⟩ : ∃ v, (rankList.findSome? (fun r =>
        appRoot.children.findSome? (fun c =>
          if childRank c s = some r then resolveNodeF 15 c (s :: rest) else none)))
        = some v := by
      refine Option.isSome_iff_exists.mp ?_
      refine findSome?_isSome_of_mem rankList _ 4 (by decide) ?_
      show ((appRoot.children).findSome? (fun c =>
        if childRank c s = some 4 then resolveNodeF 15 c (s :: rest) else none)).isSome
      rw [hG4]
      rfl
    have hres : resolveNodeF 16 appRoot (s :: rest)
        = (rankList.findSome? (fun r =>
            appRoot.children.findSome? (fun c =>
              if childRank c s = some r then resolveNodeF 15 c (s :: rest)
              else none))).map
          (fun pr => ((0 : Nat) :: pr.1, pr.2)) :=
      resolveNodeF_layout_cons 15 false [appLayout, appCollege, appCatchAll] 0 s rest
    rw [hres, hv]
    exact ⟨rfl, by show (0 :: v.1 : List Nat) ≠ []; simp⟩

/-- The slash split never returns an empty list of pieces. -/
theorem splitOnSlash_ne_nil (cs : List Char) : splitOnSlash cs ≠ [] := by
  induction cs with
  | nil => simp [splitOnSlash]
  | cons c cs ih =>
    by_cases hc : c = '/'
    · simp [splitOnSlash, hc]
    · simp [splitOnSlash, hc]

/-- Every piece produced by the slash split is free of the delimiter. -/
theorem splitOnSlash_no_slash (cs : List Char) :
    ∀ p ∈ splitOnSlash cs, '/' ∉ p := by
  induction cs with
  | nil =>
    intro p hp
    rw [show splitOnSlash [] = [[]] from rfl] at hp
    rcases List.mem_cons.mp hp with rfl | hp'
    · simp
    · exact absurd hp' (List.not_mem_nil p)
  | cons c cs ih =>
    intro p hp
    rcases hr : splitOnSlash cs with - | ⟨q, qs⟩
    · exact absurd hr (splitOnSlash_ne_nil cs)
    · by_cases hc : c = '/'
      · have he : splitOnSlash (c :: cs) = [] :: q :: qs := by
          simp [splitOnSlash, hc, hr]
        rw [he] at hp
        rcases List.mem_cons.mp hp with rfl | hp'
        · simp
        · exact ih p (by rw [hr]; exact hp')
      · have he : splitOnSlash (c :: cs) = (c :: q) :: qs := by
          simp [splitOnSlash, hc, hr]
        rw [he] at hp
        rcases List.mem_cons.mp hp with rfl | hp'
        · intro hm
          rcases List.mem_cons.mp hm with h1 | h2
          · exact hc h1.symm
          · exact ih q (by rw [hr]; exact List.mem_cons_self q qs) h2
        · exact ih p (by rw [hr]; exact List.mem_cons_of_mem q hp')

/-- A delimiter-free character list splits into itself alone. -/
theorem splitOnSlash_of_no_slash (cs : List Char) (h : '/' ∉ cs) :
    splitOnSlash cs = [cs] := by
  induction cs with
  | nil => rfl
  | cons c cs ih =>
    have hc : ¬ c = '/' := fun e => h (by rw [← e]; exact List.mem_cons_self c cs)
    have hcs : '/' ∉ cs := fun m => h (List.mem_cons_of_mem c m)
    simp [splitOnSlash, hc, ih hcs]

/-- Splitting after a delimiter-free head piece peels the head off. -/
theorem splitOnSlash_append (cs t : List Char) (h : '/' ∉ cs) :
    splitOnSlash (cs ++ '/' :: t) = cs :: splitOnSlash t := by
  induction cs with
  | nil => simp [splitOnSlash]
  | cons c cs ih =>
    have hc : ¬ c = '/' := fun e => h (by rw [← e]; exact List.mem_cons_self c cs)
    have hcs : '/' ∉ cs := fun m => h (List.mem_cons_of_mem c m)
    simp [splitOnSlash, hc, ih hcs]

/-- Splitting the join of nonempty delimiter-free pieces recovers exactly the
pieces. -/
theorem splitOnSlash_joinSegs (pieces : List (List Char))
    (h : ∀ p ∈ pieces, p ≠ [] ∧ '/' ∉ p) :
    (splitOnSlash (joinSegs pieces)).filter (fun cs => !cs.isEmpty) = pieces := by
  induction pieces with
  | nil => rfl
  | cons p rest ih =>
    cases rest with
    | nil =>
      obtain ⟨hne, hns⟩ := h p (List.mem_cons_self p [])
      rw [show joinSegs [p] = p from rfl, splitOnSlash_of_no_slash p hns]
      rw [List.filter_cons, if_pos (by simp [hne])]
      rfl
    | cons q qs =>
      obtain ⟨hne, hns⟩ := h p (List.mem_cons_self p _)
      have hrest : ∀ x ∈ q :: qs, x ≠ [] ∧ '/' ∉ x :=
        fun x hx => h x (List.mem_cons_of_mem p hx)
      rw [show joinSegs (p :: q :: qs) = p ++ '/' :: joinSegs (q :: qs) from rfl,
        splitOnSlash_append _ _ hns]
      rw [List.filter_cons, if_pos (by simp [hne])]
      rw [ih hrest]

/-- Every piece of a split path string is a nonempty delimiter-free
segment. -/
theorem splitPath_admissible (p : String) :
    ∀ x ∈ splitPath p, x ≠ "" ∧ '/' ∉ x.data := by
  intro x hx
  unfold splitPath at hx
  obtain ⟨cs, hcs, rfl⟩ := List.mem_map.mp hx
  obtain ⟨hmem, hkeep⟩ := List.mem_filter.mp hcs
  constructor
  · intro he
    have hnil : cs = [] := congrArg String.data he
    rw [hnil] at hkeep
    simp at hkeep
  · exact splitOnSlash_no_slash p.data cs hmem

/-- Resolving the string built from nonempty delimiter-free pieces splits it
back into exactly those pieces. -/
theorem splitPath_buildPath (pieces : List String)
    (h : ∀ x ∈ pieces, x ≠ "" ∧ '/' ∉ x.data) :
    splitPath (buildPath pieces) = pieces := by
  have hp' : ∀ p ∈ pieces.map String.data, p ≠ [] ∧ '/' ∉ p := by
    intro p hp
    obtain ⟨x, hx, rfl⟩ := List.mem_map.mp hp
    obtain ⟨h1, h2⟩ := h x hx
    refine ⟨?_, h2⟩
    intro he
    apply h1
    cases x with
    | mk l =>
      have : l = [] := he
      rw [this]
  unfold splitPath buildPath
  rw [show (String.mk ('/' :: joinSegs (pieces.map String.data))).data
      = '/' :: joinSegs (pieces.map String.data) from rfl]
  rw [show splitOnSlash ('/' :: joinSegs (pieces.map String.data))
      = [] :: splitOnSlash (joinSegs (pieces.map String.data)) from by
    simp [splitOnSlash]]
  rw [List.filter_cons, if_neg (by simp)]
  rw [splitOnSlash_joinSegs (pieces.map String.data) hp']
  rw [List.map_map]
  have hid : ((fun cs => (⟨cs⟩ : String)) ∘ String.data) = id := by
    funext x
    rfl
  rw [hid, List.map_id]

/-- When the checked pattern has no misplaced wildcard, any wildcard can
only be final. -/
theorem wildOK_of_no_middle (segs : List PatternSegment)
    (h : segs.dropLast.any isWildcard = false) : wildOK segs = true := by
  induction segs with
  | nil => rfl
  | cons sg rest ih =>
    cases rest with
    | nil => cases sg <;> rfl
    | cons q qs =>
      rw [List.dropLast_cons₂, List.any_cons, Bool.or_eq_false_iff] at h
      cases sg with
      | wildcard => simp [isWildcard] at h
      | literal t => simpa [wildOK] using ih h.2
      | param n => simpa [wildOK] using ih h.2
      | optionalParam n => simpa [wildOK] using ih h.2

/-- A raw segment classified as a literal is the literal of its own text. -/
theorem compileSeg_literal (piece t : String) (h : compileSeg piece = .literal t) :
    t = piece := by
  unfold compileSeg at h
  split at h
  · exact PatternSegment.noConfusion h
  · split at h
    · split at h
      · exact PatternSegment.noConfusion h
      · exact PatternSegment.noConfusion h
    · injection h with h'
      exact h'.symm

/-- Literal texts of a compiled pattern are nonempty and delimiter-free. -/
theorem compile_ok_literal_admissible (pattern : String) (segs : List PatternSegment)
    (hc : compile pattern = .ok segs) :
    ∀ t : String, PatternSegment.literal t ∈ segs → t ≠ "" ∧ '/' ∉ t.data := by
  intro t ht
  obtain ⟨hseg, -, -, -⟩ := compile_ok_shape pattern segs hc
  subst hseg
  obtain ⟨piece, hpiece, hcs⟩ := List.mem_map.mp ht
  obtain rfl := compileSeg_literal piece t hcs
  exact splitPath_admissible pattern t hpiece

/-- The pieces built by an admissible substitution are nonempty and
delimiter-free. -/
theorem builtPieces_admissible (σ : String → String) (w : String)
    (segs : List PatternSegment)
    (hσ : ∀ sg ∈ segs, substOK σ sg)
    (hlit : ∀ t : String, PatternSegment.literal t ∈ segs → t ≠ "" ∧ '/' ∉ t.data) :
    ∀ x ∈ builtPieces σ w segs, x ≠ "" ∧ '/' ∉ x.data := by
  induction segs with
  | nil => intro x hx; exact absurd hx (List.not_mem_nil x)
  | cons sg rest ih =>
    intro x hx
    have hih := ih (fun s hs => hσ s (List.mem_cons_of_mem sg hs))
      (fun t ht => hlit t (List.mem_cons_of_mem sg ht))
    rcases List.mem_append.mp (by simpa [builtPieces] using hx) with hx1 | hx2
    · cases sg with
      | literal t =>
        have hxe : x = t := by simpa [substSeg] using hx1
        subst hxe
        exact hlit x (List.mem_cons_self _ _)
      | param n =>
        have hxe : x = σ n := by simpa [substSeg] using hx1
        subst hxe
        exact hσ (.param n) (List.mem_cons_self _ _)
      | optionalParam n =>
        have hxe : x = σ n := by simpa [substSeg] using hx1
        subst hxe
        exact hσ (.optionalParam n) (List.mem_cons_self _ _)
      | wildcard =>
        exact splitPath_admissible w x (by simpa [substSeg] using hx1)
    · exact hih x hx2

/-- Matching a pattern against its own substitution instance places the full
consumption with exactly the substituted captures first. -/
theorem matchSegs_built (σ : String → String) (w : String)
    (hw : joinPath (splitPath w) = w) :
    ∀ segs : List PatternSegment, wildOK segs = true →
      ∃ tail, matchSegs segs (builtPieces σ w segs)
        = (capsOf σ w segs, ([] : List String)) :: tail := by
  intro segs
  induction segs with
  | nil => intro _; exact ⟨[], rfl⟩
  | cons sg rest ih =>
    intro hok
    cases sg with
    | literal t =>
      have hok' : wildOK rest = true := by simpa [wildOK] using hok
      obtain ⟨tail, htail⟩ := ih hok'
      refine ⟨tail, ?_⟩
      show (if t = t then matchSegs rest (builtPieces σ w rest) else [])
        = (capsOf σ w rest, ([] : List String)) :: tail
      rw [if_pos rfl, htail]
    | param n =>
      have hok' : wildOK rest = true := by simpa [wildOK] using hok
      obtain ⟨tail, htail⟩ := ih hok'
      refine ⟨tail.map (fun pr => ((n, σ n) :: pr.1, pr.2)), ?_⟩
      show (matchSegs rest (builtPieces σ w rest)).map
          (fun pr => ((n, σ n) :: pr.1, pr.2))
        = ((n, σ n) :: capsOf σ w rest, ([] : List String))
          :: tail.map (fun pr => ((n, σ n) :: pr.1, pr.2))
      rw [htail]
      rfl
    | optionalParam n =>
      have hok' : wildOK rest = true := by simpa [wildOK] using hok
      obtain ⟨tail, htail⟩ := ih hok'
      refine ⟨tail.map (fun pr => ((n, σ n) :: pr.1, pr.2))
        ++ matchSegs rest (σ n :: builtPieces σ w rest), ?_⟩
      show (matchSegs rest (builtPieces σ w rest)).map
            (fun pr => ((n, σ n) :: pr.1, pr.2))
          ++ matchSegs rest (σ n :: builtPieces σ w rest)
        = ((n, σ n) :: capsOf σ w rest, ([] : List String))
          :: (tail.map (fun pr => ((n, σ n) :: pr.1, pr.2))
            ++ matchSegs rest (σ n :: builtPieces σ w rest))
      rw [htail]
      rfl
    | wildcard =>
      have hrest : rest = [] := by
        have := hok
        rw [show wildOK (.wildcard :: rest) = rest.isEmpty from rfl] at this
        exact List.isEmpty_eq_true.mp this
      subst hrest
      refine ⟨[], ?_⟩
      show [(("*", joinPath (splitPath w ++ [])) :: ([] : List (String × String)),
          ([] : List String))]
        = [([("*", w)], [])]
      rw [List.append_nil, hw]

/-- The capture keys of a substitution instance are exactly the pattern's
parameter names, in order. -/
theorem capsOf_keys (σ : String → String) (w : String) :
    ∀ segs : List PatternSegment,
      (capsOf σ w segs).map Prod.fst = segs.filterMap segName := by
  intro segs
  induction segs with
  | nil => rfl
  | cons sg rest ih =>
    cases sg <;> simp [capsOf, segName, List.filterMap_cons, ih]

/-- Collapsing a capture sequence whose keys are already distinct changes
nothing. -/
theorem paramsMap_of_nodup (caps : List (String × String))
    (h : (caps.map Prod.fst).Nodup) : paramsMap caps = caps := by
  induction caps with
  | nil => rfl
  | cons kv rest ih =>
    obtain ⟨k, v⟩ := kv
    rw [List.map_cons, List.nodup_cons] at h
    have hany : rest.any (fun e => e.1 == k) = false := by
      rw [List.any_eq_false]
      intro e he hbe
      exact h.1 (List.mem_map.mpr ⟨e, he, by simpa using hbe⟩)
    simp [paramsMap, hany, ih h.2]

/-- C1 (amended): for every pattern that compiles without PatternError and
every substitution assigning each parameter, optional parameters included, a
nonempty delimiter-free value, and assigning the wildcard a value equal to
its own split-and-rejoin normalization, building the concrete path from the
pattern by substituting those values and resolving it yields a matched
MatchResult whose parameter mapping is exactly the substituted entries. -/
theorem compile_resolve_round_trip_amended (pattern : String) (σ : String → String)
    (w : String) (segs : List PatternSegment) (payload : Nat)
    (hc : compile pattern = .ok segs)
    (hσ : ∀ sg ∈ segs, substOK σ sg)
    (hw : joinPath (splitPath w) = w) :
    resolve (RouteNode.mk segs false [] payload) (buildPath (builtPieces σ w segs))
      = ⟨[payload], capsOf σ w segs, true⟩ := by
  obtain ⟨hseg, hany, -, hnodup⟩ := compile_ok_shape pattern segs hc
  have hwOK : wildOK segs = true := by
    apply wildOK_of_no_middle
    rw [hseg]
    exact hany
  have hlit := compile_ok_literal_admissible pattern segs hc
  have hadm := builtPieces_admissible σ w segs hσ hlit
  have hsplit : splitPath (buildPath (builtPieces σ w segs)) = builtPieces σ w segs :=
    splitPath_buildPath _ hadm
  obtain ⟨tail, htail⟩ := matchSegs_built σ w hw segs hwOK
  have hnode : resolveNodeF 1 (RouteNode.mk segs false [] payload)
      (builtPieces σ w segs) = some ([payload], capsOf σ w segs) := by
    rw [show (1 : Nat) = 0 + 1 from rfl, resolveNodeF_succ]
    rw [show (RouteNode.mk segs false [] payload).segs = segs from rfl]
    rw [htail]
    rw [List.findSome?_cons]
    rfl
  unfold resolve
  rw [show RouteNode.size (RouteNode.mk segs false [] payload) = 1 from rfl]
  rw [hsplit, hnode]
  show (⟨[payload], paramsMap (capsOf σ w segs), true⟩ : MatchResult)
    = ⟨[payload], capsOf σ w segs, true⟩
  rw [paramsMap_of_nodup]
  rw [capsOf_keys, hseg]
  exact hnodup

/-- Witness for C1: the amended round trip applied to the users pattern with
the identifier substituted by 7 and the optional name by Jane. -/
theorem compile_resolve_round_trip_amended_witness :
    resolve (RouteNode.mk [.literal "users", .param "id", .optionalParam "name"]
      false [] 5) "/users/7/Jane" = ⟨[5], [("id", "7"), ("name", "Jane")], true⟩ := by
  have h := compile_resolve_round_trip_amended "/users/:id/:name?" sigW ""
    [.literal "users", .param "id", .optionalParam "name"] 5 rfl (by decide) rfl
  exact h

/-- Counterexample for C1 as stated: substituting the value a/b, which holds
a segment delimiter, builds a path whose resolution does not match at all,
and leaving an optional parameter unsubstituted while substituting a later
one yields a mapping naming the earlier parameter instead. -/
theorem compile_resolve_round_trip_cx :
    compile "/users/:id" = .ok [.literal "users", .param "id"] ∧
    buildPath (builtPieces (fun _ => "a/b") "" [.literal "users", .param "id"])
      = "/users/a/b" ∧
    resolve (RouteNode.mk [.literal "users", .param "id"] false [] 0) "/users/a/b"
      = ⟨[], [], false⟩ ∧
    compile "/:a?/:b?" = .ok [.optionalParam "a", .optionalParam "b"] ∧
    resolve (RouteNode.mk [.optionalParam "a", .optionalParam "b"] false [] 0) "/v"
      = ⟨[0], [("a", "v")], true⟩ :=
  ⟨rfl, rfl, rfl, rfl, rfl⟩
